import Mathlib

/-!
Verification of the opendeplete OpenMC wrapper (`openmc_wrapper.py`).

This file shallowly embeds the pure content of the wrapper's operations:
geometry decomposition and load balancing (`extract_mat_ids`, lines 299-330),
the global nuclide dictionary (lines 284-297), the volume guard (lines
275-282), materials-document generation and density clamping
(`generate_materials_xml`, lines 507-583), settings/seed handling
(`generate_settings_xml`, lines 585-621), tally expansion, per-atom division
and power normalization (`unpack_tallies_and_normalize`, lines 708-814), and
the per-rank event order of `eval` (lines 409-471).

Machine floating point is idealized as exact rational arithmetic `ℚ`; for the
one claim about non-finite IEEE results, non-finiteness is modelled by an
`Option ℚ` poison value (`none` = non-finite) that propagates through
multiplication and is produced by division by zero.
-/

namespace OpenDeplete

/-! ### Material decomposition (lines 299-323)

`chunk, extra = divmod(len(mat_burn), n)`; rank `i` receives `chunk + 1`
elements when `i < extra`, else `chunk`, sliced as `mat_burn[j:j+c_chunk]`.
-/

/-- Size of the chunk handed to rank `i` (`c_chunk` in the source). -/
def chunkSize (chunk extra i : ℕ) : ℕ := if i < extra then chunk + 1 else chunk

/-- Loop body of the decomposition: successive slices `xs[j:j+c_chunk]`,
with `j` advanced by each chunk size. -/
def decomposeGo {α : Type} (xs : List α) (chunk extra : ℕ) : List ℕ → ℕ → List (List α)
  | [], _ => []
  | i :: rest, j =>
      ((xs.drop j).take (chunkSize chunk extra i)) ::
        decomposeGo xs chunk extra rest (j + chunkSize chunk extra i)

/-- `decompose xs r` splits the sorted id list `xs` into `r` contiguous
chunks, the first `xs.length % r` ranks receiving one extra element.  This is
the loop at lines 299-311 (and its verbatim copy for non-burnable materials
at lines 313-323). -/
def decompose {α : Type} (xs : List α) (r : ℕ) : List (List α) :=
  decomposeGo xs (xs.length / r) (xs.length % r) (List.range r) 0

theorem decomposeGo_join {α : Type} (xs : List α) (c e : ℕ) (idxs : List ℕ) (j : ℕ) :
    (decomposeGo xs c e idxs j).flatten =
      (xs.drop j).take ((idxs.map (chunkSize c e)).sum) := by
  induction idxs generalizing j with
  | nil => simp [decomposeGo]
  | cons i rest ih =>
      simp only [decomposeGo, List.flatten_cons, List.map_cons, List.sum_cons, ih]
      rw [List.take_add, List.drop_drop]

theorem sum_chunkSizes (c e r : ℕ) :
    ((List.range r).map (chunkSize c e)).sum = c * r + min e r := by
  induction r with
  | zero => simp
  | succ n ih =>
      rw [List.range_succ, List.map_append, List.sum_append]
      simp only [List.map_cons, List.map_nil, List.sum_cons, List.sum_nil, ih, chunkSize,
        Nat.mul_succ]
      split <;> omega

theorem decomposeGo_map_length {α : Type} (xs : List α) (c e : ℕ) (idxs : List ℕ) (j : ℕ)
    (h : j + (idxs.map (chunkSize c e)).sum ≤ xs.length) :
    (decomposeGo xs c e idxs j).map List.length = idxs.map (chunkSize c e) := by
  induction idxs generalizing j with
  | nil => simp [decomposeGo]
  | cons i rest ih =>
      simp only [List.map_cons, List.sum_cons] at h
      simp only [decomposeGo, List.map_cons, List.cons.injEq]
      refine ⟨?_, ih (j + chunkSize c e i) (by omega)⟩
      rw [List.length_take, List.length_drop]
      omega

/-- C1: for every id list and every positive rank count `r`, the partitioner
produces `r` contiguous chunks whose sizes are `⌊n/r⌋ + 1` for the first
`n % r` ranks and `⌊n/r⌋` for the rest; consequently any two chunk sizes
differ by at most 1, and the chunks concatenated in rank order reproduce the
original list exactly. -/
theorem decompose_spec {α : Type} (xs : List α) (r : ℕ) (hr : 0 < r) :
    (decompose xs r).map List.length =
      (List.range r).map
        (fun i => if i < xs.length % r then xs.length / r + 1 else xs.length / r)
    ∧ (decompose xs r).flatten = xs
    ∧ ∀ a ∈ (decompose xs r).map List.length,
        ∀ b ∈ (decompose xs r).map List.length, a ≤ b + 1 := by
  have hmod : xs.length % r < r := Nat.mod_lt _ hr
  have hdm : xs.length / r * r + xs.length % r = xs.length := by
    rw [Nat.mul_comm]; exact Nat.div_add_mod _ _
  have hsum :
      ((List.range r).map (chunkSize (xs.length / r) (xs.length % r))).sum = xs.length := by
    rw [sum_chunkSizes]; omega
  have hlen :
      (decompose xs r).map List.length =
        (List.range r).map (chunkSize (xs.length / r) (xs.length % r)) := by
    unfold decompose
    exact decomposeGo_map_length xs _ _ _ 0 (by omega)
  refine ⟨?_, ?_, ?_⟩
  · rw [hlen]; rfl
  · unfold decompose
    rw [decomposeGo_join, hsum]
    simp
  · intro a ha b hb
    rw [hlen] at ha hb
    obtain ⟨i, _, hi⟩ := List.mem_map.1 ha
    obtain ⟨k, _, hk⟩ := List.mem_map.1 hb
    unfold chunkSize at hi hk
    split at hi <;> split at hk <;> omega

/-- Witness for `decompose_spec` at a concrete input. -/
theorem decompose_spec_witness :
    0 < 2
    ∧ ((decompose ([10, 20, 30] : List ℕ) 2).map List.length =
        (List.range 2).map
          (fun i => if i < ([10, 20, 30] : List ℕ).length % 2
            then ([10, 20, 30] : List ℕ).length / 2 + 1
            else ([10, 20, 30] : List ℕ).length / 2)
      ∧ (decompose ([10, 20, 30] : List ℕ) 2).flatten = [10, 20, 30]
      ∧ ∀ a ∈ (decompose ([10, 20, 30] : List ℕ) 2).map List.length,
          ∀ b ∈ (decompose ([10, 20, 30] : List ℕ) 2).map List.length, a ≤ b + 1) :=
  ⟨by norm_num, decompose_spec ([10, 20, 30] : List ℕ) 2 (by norm_num)⟩

/-! ### Global nuclide dictionary (lines 284-297) -/

/-- Entries `(name, k), (name, k+1), ...` appended to an ordered dictionary
starting at index `k`. -/
def appendNew {α : Type} (k : ℕ) : List α → List (α × ℕ)
  | [] => []
  | n :: rest => (n, k) :: appendNew (k + 1) rest

/-- Modelled from the spec: `DepletionChain.nuclide_dict` (the depletion-chain
data model is code of this repository that is not under `src/`) — an ordered,
deduplicated mapping sending the chain-known nuclides, in chain order, to the
dense indices `0, 1, ...`. -/
def chainDict {α : Type} (chainNucs : List α) : List (α × ℕ) := appendNew 0 chainNucs

/-- Loop at lines 292-297: `for nuc in nuc_set: if nuc not in nuc_dict:
nuc_dict[nuc] = i; i += 1`, where `i` starts at `len(nuc_dict)` and therefore
always equals the current dictionary size. -/
def buildNucDictGo {α : Type} [DecidableEq α] (acc : List (α × ℕ)) : List α → List (α × ℕ)
  | [] => acc
  | n :: rest =>
      if n ∈ acc.map Prod.fst then buildNucDictGo acc rest
      else buildNucDictGo (acc ++ [(n, acc.length)]) rest

/-- Lines 289-297: the global nuclide dictionary, chain nuclides first, the
sorted geometry nuclides not already known appended after them. -/
def buildNucDict {α : Type} [DecidableEq α] (chainNucs nucSet : List α) : List (α × ℕ) :=
  buildNucDictGo (chainDict chainNucs) nucSet

theorem appendNew_map_fst {α : Type} (k : ℕ) (l : List α) :
    (appendNew k l).map Prod.fst = l := by
  induction l generalizing k with
  | nil => rfl
  | cons n rest ih => simp [appendNew, ih]

theorem appendNew_map_snd {α : Type} (k : ℕ) (l : List α) :
    (appendNew k l).map Prod.snd = List.range' k l.length := by
  induction l generalizing k with
  | nil => rfl
  | cons n rest ih => simp [appendNew, ih, List.range'_succ]

theorem appendNew_length {α : Type} (k : ℕ) (l : List α) :
    (appendNew k l).length = l.length := by
  rw [← List.length_map (f := Prod.fst), appendNew_map_fst]

theorem buildNucDictGo_eq {α : Type} [DecidableEq α] (l : List α) (hl : l.Nodup)
    (acc : List (α × ℕ)) :
    buildNucDictGo acc l =
      acc ++ appendNew acc.length (l.filter (fun x => x ∉ acc.map Prod.fst)) := by
  induction l generalizing acc with
  | nil => simp [buildNucDictGo, appendNew]
  | cons n rest ih =>
      rcases List.nodup_cons.1 hl with ⟨hn, hrest⟩
      by_cases hmem : n ∈ acc.map Prod.fst
      · rw [buildNucDictGo, if_pos hmem, ih hrest, List.filter_cons]
        simp [hmem]
      · rw [buildNucDictGo, if_neg hmem, ih hrest, List.filter_cons]
        have hfilter :
            rest.filter (fun x => decide (x ∉ (acc ++ [(n, acc.length)]).map Prod.fst)) =
              rest.filter (fun x => decide (x ∉ acc.map Prod.fst)) := by
          apply List.filter_congr
          intro x hx
          have hxn : x ≠ n := fun h => hn (h ▸ hx)
          simp [hxn]
        rw [hfilter]
        have hcond : (decide (n ∉ acc.map Prod.fst)) = true := by simpa using hmem
        rw [hcond]
        simp [appendNew, List.append_assoc]

/-- C5: the global nuclide index is an injective map to dense indices: chain
nuclides keep their chain-order indices at the lowest positions, and geometry
nuclides not already in the chain are appended after them, in sorted order,
each receiving the next consecutive index. -/
theorem buildNucDict_spec {α : Type} [LinearOrder α] (chainNucs nucSet : List α)
    (h1 : chainNucs.Nodup) (h2 : nucSet.Nodup) (h3 : nucSet.Sorted (· ≤ ·)) :
    buildNucDict chainNucs nucSet =
      chainDict chainNucs ++
        appendNew chainNucs.length (nucSet.filter (fun x => x ∉ chainNucs))
    ∧ ((buildNucDict chainNucs nucSet).map Prod.fst).Nodup
    ∧ (buildNucDict chainNucs nucSet).map Prod.snd =
        List.range (chainNucs.length + (nucSet.filter (fun x => x ∉ chainNucs)).length)
    ∧ (nucSet.filter (fun x => x ∉ chainNucs)).Sorted (· ≤ ·) := by
  have hkeys0 : (chainDict chainNucs).map Prod.fst = chainNucs := appendNew_map_fst 0 _
  have hlen0 : (chainDict chainNucs).length = chainNucs.length := appendNew_length 0 _
  have heq : buildNucDict chainNucs nucSet =
      chainDict chainNucs ++
        appendNew chainNucs.length (nucSet.filter (fun x => x ∉ chainNucs)) := by
    rw [buildNucDict, buildNucDictGo_eq _ h2, hkeys0, hlen0]
  have hnews : ∀ x ∈ nucSet.filter (fun x => x ∉ chainNucs), x ∉ chainNucs := by
    intro x hx
    simpa using (List.mem_filter.1 hx).2
  refine ⟨heq, ?_, ?_, h3.filter _⟩
  · rw [heq, List.map_append, hkeys0, appendNew_map_fst]
    rw [List.nodup_append]
    exact ⟨h1, h2.filter _, fun x hx hx' => hnews x hx' hx⟩
  · rw [heq, List.map_append, chainDict, appendNew_map_snd, appendNew_map_snd]
    have h := List.range'_append 0 chainNucs.length
      ((nucSet.filter (fun x => x ∉ chainNucs)).length) 1
    simp only [Nat.zero_add, Nat.one_mul] at h
    rw [h, List.range_eq_range', Nat.add_comm]

/-- Witness for `buildNucDict_spec` at a concrete input. -/
theorem buildNucDict_spec_witness :
    ([5, 2] : List ℕ).Nodup ∧ ([1, 2, 7] : List ℕ).Nodup
    ∧ ([1, 2, 7] : List ℕ).Sorted (· ≤ ·)
    ∧ (buildNucDict [5, 2] [1, 2, 7] =
        chainDict [5, 2] ++
          appendNew ([5, 2] : List ℕ).length (([1, 2, 7] : List ℕ).filter (fun x => x ∉ ([5, 2] : List ℕ)))
      ∧ ((buildNucDict [5, 2] [1, 2, 7]).map Prod.fst).Nodup
      ∧ (buildNucDict [5, 2] [1, 2, 7]).map Prod.snd =
          List.range (([5, 2] : List ℕ).length + (([1, 2, 7] : List ℕ).filter (fun x => x ∉ ([5, 2] : List ℕ))).length)
      ∧ (([1, 2, 7] : List ℕ).filter (fun x => x ∉ ([5, 2] : List ℕ))).Sorted (· ≤ ·)) :=
  ⟨by decide, by decide, by decide,
    buildNucDict_spec [5, 2] [1, 2, 7] (by decide) (by decide) (by decide)⟩

/-! ### Geometry scan and the volume guard (lines 242-330) -/

/-- A material as seen by the geometry scan: id, burnable flag, optional
volume, constituent nuclide names. -/
structure GeoMaterial (α : Type) where
  id : ℕ
  burnable : Bool
  volume : Option ℚ
  nuclides : List α

/-- Ordered-dictionary assignment `volume[str(mat.id)] = mat.volume`:
overwrite in place if the key exists, else append. -/
def dictInsert (d : List (ℕ × Option ℚ)) (k : ℕ) (v : Option ℚ) : List (ℕ × Option ℚ) :=
  if d.any (fun p => p.1 = k) then d.map (fun p => if p.1 = k then (k, v) else p)
  else d ++ [(k, v)]

/-- Geometry scan accumulating the per-burnable-material volume dictionary
(lines 248-273, restricted to the `volume` updates). -/
def collectVolumesGo {α : Type} (acc : List (ℕ × Option ℚ)) :
    List (GeoMaterial α) → List (ℕ × Option ℚ)
  | [] => acc
  | m :: rest =>
      collectVolumesGo (if m.burnable then dictInsert acc m.id m.volume else acc) rest

/-- The volume dictionary built by one pass over the geometry. -/
def collectVolumes {α : Type} (mats : List (GeoMaterial α)) : List (ℕ × Option ℚ) :=
  collectVolumesGo [] mats

/-- Lines 275-279: ids in the volume dictionary whose volume is absent. -/
def needVol {α : Type} (mats : List (GeoMaterial α)) : List ℕ :=
  ((collectVolumes mats).filter (fun p => p.2 = none)).map Prod.fst

/-- `extract_mat_ids` (lines 225-330): scan the geometry, abort when a
burnable material misses its volume, otherwise sort the id sets, build the
global nuclide dictionary, and decompose both id lists across the ranks.
The error value models the `exit("Need volumes for materials: ...")` message
payload. -/
def extract_mat_ids {α : Type} [LinearOrder α] (chainNucs : List α)
    (mats : List (GeoMaterial α)) (size : ℕ) :
    Except (List ℕ)
      (List (List ℕ) × List (List ℕ) × List (ℕ × Option ℚ) × List (ℕ × ℕ) × List (α × ℕ)) :=
  let volume := collectVolumes mats
  let need_vol := (volume.filter (fun p => p.2 = none)).map Prod.fst
  if need_vol ≠ [] then .error need_vol
  else
    let mat_burn := List.insertionSort (· ≤ ·) ((mats.filter (·.burnable)).map GeoMaterial.id).dedup
    let mat_not_burn :=
      List.insertionSort (· ≤ ·) ((mats.filter (fun m => !m.burnable)).map GeoMaterial.id).dedup
    let nuc_set := List.insertionSort (· ≤ ·) ((mats.map GeoMaterial.nuclides).flatten).dedup
    .ok (decompose mat_burn size, decompose mat_not_burn size, volume,
      appendNew 0 mat_burn, buildNucDict chainNucs nuc_set)

theorem dictInsert_of_not_mem (d : List (ℕ × Option ℚ)) (k : ℕ) (v : Option ℚ)
    (h : k ∉ d.map Prod.fst) : dictInsert d k v = d ++ [(k, v)] := by
  rw [dictInsert, if_neg]
  intro hc
  rcases List.any_eq_true.1 hc with ⟨p, hp, hpk⟩
  exact h (List.mem_map.2 ⟨p, hp, by simpa using hpk⟩)

theorem collectVolumesGo_eq {α : Type} (mats : List (GeoMaterial α))
    (acc : List (ℕ × Option ℚ))
    (h : (acc.map Prod.fst ++ (mats.filter (·.burnable)).map GeoMaterial.id).Nodup) :
    collectVolumesGo acc mats =
      acc ++ (mats.filter (·.burnable)).map (fun m => (m.id, m.volume)) := by
  induction mats generalizing acc with
  | nil => simp [collectVolumesGo]
  | cons m rest ih =>
      by_cases hb : m.burnable
      · rw [List.filter_cons, if_pos (by simpa using hb)] at h ⊢
        have hmid : m.id ∉ acc.map Prod.fst := by
          rcases List.nodup_append.1 h with ⟨-, -, hdisj⟩
          intro hk
          exact hdisj hk (by simp)
        rw [collectVolumesGo, if_pos hb, dictInsert_of_not_mem _ _ _ hmid]
        rw [ih (acc ++ [(m.id, m.volume)]) (by simpa [List.append_assoc] using h)]
        simp
      · rw [List.filter_cons, if_neg (by simpa using hb)] at h ⊢
        rw [collectVolumesGo, if_neg hb]
        exact ih acc h

theorem filterVolNone_eq {α : Type} (mats : List (GeoMaterial α)) :
    ((((mats.filter (·.burnable)).map (fun m => (m.id, m.volume))).filter
        (fun p => p.2 = none)).map Prod.fst) =
      (mats.filter (fun m => m.burnable && m.volume.isNone)).map GeoMaterial.id := by
  induction mats with
  | nil => rfl
  | cons m rest ih =>
      by_cases hb : m.burnable
      · by_cases hv : m.volume = none
        · simp [List.filter_cons, hb, hv, ih]
        · simp [List.filter_cons, hb, hv, ih]
      · simp [List.filter_cons, hb, ih]

/-- The ids flagged by the guard are exactly the burnable materials whose
volume is absent, in scan order. -/
theorem needVol_eq {α : Type} (mats : List (GeoMaterial α))
    (h : ((mats.filter (·.burnable)).map GeoMaterial.id).Nodup) :
    needVol mats =
      (mats.filter (fun m => m.burnable && m.volume.isNone)).map GeoMaterial.id := by
  rw [needVol, collectVolumes, collectVolumesGo_eq mats [] (by simpa using h)]
  rw [List.nil_append, filterVolNone_eq]

/-- C7: if any burnable material misses its volume, decomposition aborts with
a message naming every offending burnable material id; if none is missing,
decomposition proceeds without aborting. -/
theorem extract_mat_ids_volume_guard {α : Type} [LinearOrder α] (chainNucs : List α)
    (mats : List (GeoMaterial α)) (size : ℕ)
    (h : ((mats.filter (·.burnable)).map GeoMaterial.id).Nodup) :
    (∀ e, extract_mat_ids chainNucs mats size = .error e →
        e = (mats.filter (fun m => m.burnable && m.volume.isNone)).map GeoMaterial.id
        ∧ e ≠ [])
    ∧ ((∃ m ∈ mats, m.burnable = true ∧ m.volume = none) →
        ∃ e, extract_mat_ids chainNucs mats size = .error e)
    ∧ ((∀ m ∈ mats, m.burnable = true → m.volume ≠ none) →
        ∃ res, extract_mat_ids chainNucs mats size = .ok res) := by
  have hnv := needVol_eq mats h
  rw [needVol] at hnv
  refine ⟨?_, ?_, ?_⟩
  · intro e he
    simp only [extract_mat_ids] at he
    split at he
    · rename_i hcond
      injection he with he'
      exact ⟨he' ▸ hnv.symm ▸ rfl, he' ▸ hcond⟩
    · exact absurd he (by simp)
  · rintro ⟨m, hmem, hburn, hvol⟩
    have hne : (mats.filter (fun m => m.burnable && m.volume.isNone)).map GeoMaterial.id ≠ [] := by
      apply List.ne_nil_of_mem (a := m.id)
      exact List.mem_map.2 ⟨m, List.mem_filter.2 ⟨hmem, by simp [hburn, hvol]⟩, rfl⟩
    cases hE : extract_mat_ids chainNucs mats size with
    | error e => exact ⟨e, rfl⟩
    | ok res =>
        exfalso
        simp only [extract_mat_ids] at hE
        split at hE
        · exact absurd hE (by simp)
        · rename_i hcond
          rw [not_not] at hcond
          rw [hnv] at hcond
          exact hne hcond
  · intro hall
    have hnil : ((collectVolumes mats).filter (fun p => p.2 = none)).map Prod.fst = [] := by
      rw [hnv]
      rw [List.map_eq_nil_iff, List.filter_eq_nil_iff]
      intro m hm2
      have := hall m hm2
      simp only [Bool.and_eq_true, Option.isNone_iff_eq_none, decide_eq_true_eq, not_and]
      intro hb
      exact fun hn => this hb hn
    cases hE : extract_mat_ids chainNucs mats size with
    | ok res => exact ⟨res, rfl⟩
    | error e =>
        exfalso
        simp only [extract_mat_ids] at hE
        split at hE
        · rename_i hcond
          exact hcond hnil
        · exact absurd hE (by simp)

/-- Witness for `extract_mat_ids_volume_guard` at a concrete input. -/
theorem extract_mat_ids_volume_guard_witness :
    ((([⟨1, true, some 2, []⟩] : List (GeoMaterial ℕ)).filter (·.burnable)).map
        GeoMaterial.id).Nodup
    ∧ ((∀ e, extract_mat_ids ([] : List ℕ) [⟨1, true, some 2, []⟩] 1 = .error e →
          e = (([⟨1, true, some 2, []⟩] : List (GeoMaterial ℕ)).filter
                (fun m => m.burnable && m.volume.isNone)).map GeoMaterial.id
          ∧ e ≠ [])
      ∧ ((∃ m ∈ ([⟨1, true, some 2, []⟩] : List (GeoMaterial ℕ)),
            m.burnable = true ∧ m.volume = none) →
          ∃ e, extract_mat_ids ([] : List ℕ) [⟨1, true, some 2, []⟩] 1 = .error e)
      ∧ ((∀ m ∈ ([⟨1, true, some 2, []⟩] : List (GeoMaterial ℕ)),
            m.burnable = true → m.volume ≠ none) →
          ∃ res, extract_mat_ids ([] : List ℕ) [⟨1, true, some 2, []⟩] 1 = .ok res)) :=
  ⟨by decide, extract_mat_ids_volume_guard [] [⟨1, true, some 2, []⟩] 1 (by decide)⟩

/-! ### Materials document generation (lines 507-583)

For each material of `number.mat_to_ind` and each participating nuclide of
`number.nuc_to_ind`: `val = 1.0e-24 * number.get_atom_density(mat, nuc)`;
positive values are emitted (optionally rounded to 8 significant digits),
non-positive values are clamped to zero in the number container, with a
warning printed only when `val < -1.0e-21`.
-/

/-- Pointwise update of the two-index atom density container
(`self.number[mat, nuc] = v`). -/
def updDens {α : Type} [DecidableEq α] (f : ℕ → α → ℚ) (m : ℕ) (n : α) (v : ℚ) :
    ℕ → α → ℚ :=
  fun m' n' => if m' = m ∧ n' = n then v else f m' n'

/-- The factor `1.0e-24` of line 530. -/
def densScale : ℚ := 1 / 10 ^ 24

/-- The warning threshold `-1.0e-21` of line 546. -/
def negTol : ℚ := -(1 / 10 ^ 21)

/-- Python `round` to nearest with ties to even, idealized over `ℚ`. -/
def roundHalfEven (y : ℚ) : ℤ :=
  if Int.fract y < 1 / 2 then ⌊y⌋
  else if 1 / 2 < Int.fract y then ⌊y⌋ + 1
  else if ⌊y⌋ % 2 = 0 then ⌊y⌋ else ⌊y⌋ + 1

/-- Lines 533-538: deterministic-rounding mode — extract the decimal order of
magnitude, round the mantissa to 8 digits, reconstitute the value. -/
def emitDensity (roundNumber : Bool) (val : ℚ) : ℚ :=
  if roundNumber then
    let valMagnitude : ℤ := Int.log 10 val
    let valScaled := val / (10 : ℚ) ^ valMagnitude
    let valRound := (roundHalfEven (valScaled * 10 ^ 8) : ℚ) / 10 ^ 8
    valRound * (10 : ℚ) ^ valMagnitude
  else val

/-- Observable state of the materials-document generation: nuclide entries
emitted into the document (material id, nuclide, emitted density), warnings
printed (nuclide, material id, offending value), and the atom density
container. -/
structure GenState (α : Type) where
  entries : List (ℕ × α × ℚ)
  warnings : List (α × ℕ × ℚ)
  dens : ℕ → α → ℚ

/-- Body of the nuclide loop, lines 528-549. -/
def processNuc {α : Type} [DecidableEq α] (roundNumber : Bool) (participating : α → Bool)
    (mat : ℕ) (st : GenState α) (nuc : α) : GenState α :=
  if participating nuc then
    let val := densScale * st.dens mat nuc
    if 0 < val then
      { st with entries := st.entries ++ [(mat, nuc, emitDensity roundNumber val)] }
    else
      let st1 :=
        if val < negTol then { st with warnings := st.warnings ++ [(nuc, mat, val)] }
        else st
      { st1 with dens := updDens st1.dens mat nuc 0 }
  else st

/-- The nuclide loop `for nuc in self.number.nuc_to_ind` (line 528). -/
def processNucs {α : Type} [DecidableEq α] (roundNumber : Bool) (participating : α → Bool)
    (mat : ℕ) (st : GenState α) : List α → GenState α
  | [] => st
  | n :: rest =>
      processNucs roundNumber participating mat
        (processNuc roundNumber participating mat st n) rest

/-- The material loop `for mat in self.number.mat_to_ind` (line 517). -/
def processMats {α : Type} [DecidableEq α] (roundNumber : Bool) (participating : α → Bool)
    (nucs : List α) (st : GenState α) : List ℕ → GenState α
  | [] => st
  | m :: rest =>
      processMats roundNumber participating nucs
        (processNucs roundNumber participating m st nucs) rest

/-- `generate_materials_xml` (lines 507-583), restricted to its observable
effects: document entries, warnings, and the clamping writes into the number
container. -/
def generate_materials_xml {α : Type} [DecidableEq α] (roundNumber : Bool)
    (participating : α → Bool) (mats : List ℕ) (nucs : List α) (d0 : ℕ → α → ℚ) :
    GenState α :=
  processMats roundNumber participating nucs ⟨[], [], d0⟩ mats

theorem processNuc_dens {α : Type} [DecidableEq α] (rn : Bool) (p : α → Bool)
    (mat : ℕ) (st : GenState α) (n : α) (m' : ℕ) (n' : α) (hne : ¬(m' = mat ∧ n' = n)) :
    (processNuc rn p mat st n).dens m' n' = st.dens m' n' := by
  by_cases hp : p n
  · by_cases h0 : 0 < densScale * st.dens mat n
    · simp [processNuc, hp, h0]
    · by_cases hw : densScale * st.dens mat n < negTol
      · simp [processNuc, hp, h0, hw, updDens, hne]
      · simp [processNuc, hp, h0, hw, updDens, hne]
  · simp [processNuc, hp]

theorem processNuc_entries {α : Type} [DecidableEq α] (rn : Bool) (p : α → Bool)
    (mat : ℕ) (st : GenState α) (n : α) :
    (processNuc rn p mat st n).entries =
      if p n ∧ 0 < densScale * st.dens mat n then
        st.entries ++ [(mat, n, emitDensity rn (densScale * st.dens mat n))]
      else st.entries := by
  by_cases hp : p n
  · by_cases h0 : 0 < densScale * st.dens mat n
    · simp [processNuc, hp, h0]
    · by_cases hw : densScale * st.dens mat n < negTol
      · simp [processNuc, hp, h0, hw]
      · simp [processNuc, hp, h0, hw]
  · simp [processNuc, hp]

theorem processNuc_warnings {α : Type} [DecidableEq α] (rn : Bool) (p : α → Bool)
    (mat : ℕ) (st : GenState α) (n : α) :
    (processNuc rn p mat st n).warnings =
      if p n ∧ densScale * st.dens mat n < negTol then
        st.warnings ++ [(n, mat, densScale * st.dens mat n)]
      else st.warnings := by
  by_cases hp : p n
  · by_cases h0 : 0 < densScale * st.dens mat n
    · have hnw : ¬(densScale * st.dens mat n < negTol) := fun hw =>
        absurd (lt_trans hw (by norm_num [negTol])) (not_lt.2 h0.le)
      simp [processNuc, hp, h0, hnw]
    · by_cases hw : densScale * st.dens mat n < negTol
      · simp [processNuc, hp, h0, hw]
      · simp [processNuc, hp, h0, hw]
  · simp [processNuc, hp]

theorem processNucs_dens {α : Type} [DecidableEq α] (rn : Bool) (p : α → Bool) (mat : ℕ)
    (nucs : List α) (h : nucs.Nodup) (st : GenState α) (m' : ℕ) (n' : α) :
    (processNucs rn p mat st nucs).dens m' n' =
      if m' = mat ∧ n' ∈ nucs ∧ p n' = true ∧ densScale * st.dens mat n' ≤ 0
      then 0 else st.dens m' n' := by
  induction nucs generalizing st with
  | nil => simp [processNucs]
  | cons n rest ih =>
      rcases List.nodup_cons.1 h with ⟨hn, hrest⟩
      rw [processNucs, ih hrest]
      by_cases hm : m' = mat
      · by_cases hnn : n' = n
        · rw [hm, hnn]
          rw [if_neg (fun hc => hn hc.2.1)]
          by_cases hp : p n
          · by_cases h0 : 0 < densScale * st.dens mat n
            · have hng : ¬ densScale * st.dens mat n ≤ 0 := not_le.2 h0
              simp [processNuc, hp, h0, hng]
            · have hle : densScale * st.dens mat n ≤ 0 := not_lt.1 h0
              by_cases hw : densScale * st.dens mat n < negTol
              · simp [processNuc, hp, h0, hw, updDens, hle]
              · simp [processNuc, hp, h0, hw, updDens, hle]
          · simp [processNuc, hp]
        · have hd : (processNuc rn p mat st n).dens mat n' = st.dens mat n' :=
            processNuc_dens rn p mat st n mat n' (fun hc => hnn hc.2)
          rw [hm, hd]
          simp [List.mem_cons, hnn]
      · rw [if_neg (fun hc => hm hc.1), if_neg (fun hc => hm hc.1)]
        exact processNuc_dens rn p mat st n m' n' (fun hc => hm hc.1)

theorem processNucs_entries {α : Type} [DecidableEq α] (rn : Bool) (p : α → Bool) (mat : ℕ)
    (nucs : List α) (h : nucs.Nodup) (st : GenState α) :
    (processNucs rn p mat st nucs).entries =
      st.entries ++
        (nucs.filter (fun x => p x && decide (0 < densScale * st.dens mat x))).map
          (fun x => (mat, x, emitDensity rn (densScale * st.dens mat x))) := by
  induction nucs generalizing st with
  | nil => simp [processNucs]
  | cons n rest ih =>
      rcases List.nodup_cons.1 h with ⟨hn, hrest⟩
      rw [processNucs, ih hrest]
      have hd : ∀ x ∈ rest, (processNuc rn p mat st n).dens mat x = st.dens mat x :=
        fun x hx => processNuc_dens rn p mat st n mat x (fun hc => hn (hc.2 ▸ hx))
      have hfil :
          rest.filter
              (fun x => p x && decide (0 < densScale * (processNuc rn p mat st n).dens mat x)) =
            rest.filter (fun x => p x && decide (0 < densScale * st.dens mat x)) :=
        List.filter_congr (fun x hx => by rw [hd x hx])
      have hmap :
          (rest.filter (fun x => p x && decide (0 < densScale * st.dens mat x))).map
              (fun x => (mat, x, emitDensity rn (densScale * (processNuc rn p mat st n).dens mat x))) =
            (rest.filter (fun x => p x && decide (0 < densScale * st.dens mat x))).map
              (fun x => (mat, x, emitDensity rn (densScale * st.dens mat x))) := by
        apply List.map_congr_left
        intro x hx
        rw [hd x (List.mem_of_mem_filter hx)]
      rw [hfil, hmap, processNuc_entries, List.filter_cons]
      by_cases hP : p n = true ∧ 0 < densScale * st.dens mat n
      · have h1 := hP.1
        have h2 := hP.2
        have hb : (p n && decide (0 < densScale * st.dens mat n)) = true := by simp [h1, h2]
        simp [h1, h2, hb, List.append_assoc]
      · have hb : (p n && decide (0 < densScale * st.dens mat n)) = false := by
          rw [Bool.eq_false_iff]
          intro hc
          simp only [Bool.and_eq_true, decide_eq_true_eq] at hc
          exact hP hc
        simp [hP, hb]

theorem processNucs_warnings {α : Type} [DecidableEq α] (rn : Bool) (p : α → Bool) (mat : ℕ)
    (nucs : List α) (h : nucs.Nodup) (st : GenState α) :
    (processNucs rn p mat st nucs).warnings =
      st.warnings ++
        (nucs.filter (fun x => p x && decide (densScale * st.dens mat x < negTol))).map
          (fun x => (x, mat, densScale * st.dens mat x)) := by
  induction nucs generalizing st with
  | nil => simp [processNucs]
  | cons n rest ih =>
      rcases List.nodup_cons.1 h with ⟨hn, hrest⟩
      rw [processNucs, ih hrest]
      have hd : ∀ x ∈ rest, (processNuc rn p mat st n).dens mat x = st.dens mat x :=
        fun x hx => processNuc_dens rn p mat st n mat x (fun hc => hn (hc.2 ▸ hx))
      have hfil :
          rest.filter
              (fun x => p x && decide (densScale * (processNuc rn p mat st n).dens mat x < negTol)) =
            rest.filter (fun x => p x && decide (densScale * st.dens mat x < negTol)) :=
        List.filter_congr (fun x hx => by rw [hd x hx])
      have hmap :
          (rest.filter (fun x => p x && decide (densScale * st.dens mat x < negTol))).map
              (fun x => (x, mat, densScale * (processNuc rn p mat st n).dens mat x)) =
            (rest.filter (fun x => p x && decide (densScale * st.dens mat x < negTol))).map
              (fun x => (x, mat, densScale * st.dens mat x)) := by
        apply List.map_congr_left
        intro x hx
        rw [hd x (List.mem_of_mem_filter hx)]
      rw [hfil, hmap, processNuc_warnings, List.filter_cons]
      by_cases hP : p n = true ∧ densScale * st.dens mat n < negTol
      · have h1 := hP.1
        have h2 := hP.2
        have hb : (p n && decide (densScale * st.dens mat n < negTol)) = true := by
          simp [h1, h2]
        simp [h1, h2, hb, List.append_assoc]
      · have hb : (p n && decide (densScale * st.dens mat n < negTol)) = false := by
          rw [Bool.eq_false_iff]
          intro hc
          simp only [Bool.and_eq_true, decide_eq_true_eq] at hc
          exact hP hc
        simp [hP, hb]

theorem processMats_dens {α : Type} [DecidableEq α] (rn : Bool) (p : α → Bool)
    (nucs : List α) (hnucs : nucs.Nodup) (mats : List ℕ) (hmats : mats.Nodup)
    (st : GenState α) (m' : ℕ) (n' : α) :
    (processMats rn p nucs st mats).dens m' n' =
      if m' ∈ mats ∧ n' ∈ nucs ∧ p n' = true ∧ densScale * st.dens m' n' ≤ 0
      then 0 else st.dens m' n' := by
  induction mats generalizing st with
  | nil => simp [processMats]
  | cons m rest ih =>
      rcases List.nodup_cons.1 hmats with ⟨hm, hrest⟩
      rw [processMats, ih hrest]
      by_cases hmm : m' = m
      · rw [hmm]
        rw [if_neg (fun hc => hm hc.1)]
        rw [processNucs_dens rn p m nucs hnucs st m n']
        simp [List.mem_cons]
      · have hrow : (processNucs rn p m st nucs).dens m' n' = st.dens m' n' := by
          rw [processNucs_dens rn p m nucs hnucs st m' n', if_neg (fun hc => hmm hc.1)]
        rw [hrow]
        simp [List.mem_cons, hmm]

theorem processMats_warnings {α : Type} [DecidableEq α] (rn : Bool) (p : α → Bool)
    (nucs : List α) (hnucs : nucs.Nodup) (mats : List ℕ) (hmats : mats.Nodup)
    (st : GenState α) :
    (processMats rn p nucs st mats).warnings =
      st.warnings ++
        (mats.map (fun mm =>
          (nucs.filter (fun x => p x && decide (densScale * st.dens mm x < negTol))).map
            (fun x => (x, mm, densScale * st.dens mm x)))).flatten := by
  induction mats generalizing st with
  | nil => simp [processMats]
  | cons m rest ih =>
      rcases List.nodup_cons.1 hmats with ⟨hm, hrest⟩
      rw [processMats, ih hrest]
      have hrow : ∀ m'' ∈ rest, ∀ x,
          (processNucs rn p m st nucs).dens m'' x = st.dens m'' x := by
        intro m'' hm'' x
        have hcond : ¬(m'' = m ∧ x ∈ nucs ∧ p x = true ∧ densScale * st.dens m x ≤ 0) :=
          fun hc => hm (hc.1 ▸ hm'')
        rw [processNucs_dens rn p m nucs hnucs st m'' x, if_neg hcond]
      have hblocks :
          rest.map (fun mm =>
            (nucs.filter
                (fun x => p x &&
                  decide (densScale * (processNucs rn p m st nucs).dens mm x < negTol))).map
              (fun x => (x, mm, densScale * (processNucs rn p m st nucs).dens mm x))) =
          rest.map (fun mm =>
            (nucs.filter (fun x => p x && decide (densScale * st.dens mm x < negTol))).map
              (fun x => (x, mm, densScale * st.dens mm x))) := by
        apply List.map_congr_left
        intro mm hmm
        have hfil :
            nucs.filter
                (fun x => p x &&
                  decide (densScale * (processNucs rn p m st nucs).dens mm x < negTol)) =
              nucs.filter (fun x => p x && decide (densScale * st.dens mm x < negTol)) :=
          List.filter_congr (fun x _ => by rw [hrow mm hmm x])
        rw [hfil]
        apply List.map_congr_left
        intro x _
        rw [hrow mm hmm x]
      rw [hblocks, processNucs_warnings rn p m nucs hnucs st]
      simp [List.append_assoc]

theorem processMats_entries {α : Type} [DecidableEq α] (rn : Bool) (p : α → Bool)
    (nucs : List α) (hnucs : nucs.Nodup) (mats : List ℕ) (hmats : mats.Nodup)
    (st : GenState α) :
    (processMats rn p nucs st mats).entries =
      st.entries ++
        (mats.map (fun mm =>
          (nucs.filter (fun x => p x && decide (0 < densScale * st.dens mm x))).map
            (fun x => (mm, x, emitDensity rn (densScale * st.dens mm x))))).flatten := by
  induction mats generalizing st with
  | nil => simp [processMats]
  | cons m rest ih =>
      rcases List.nodup_cons.1 hmats with ⟨hm, hrest⟩
      rw [processMats, ih hrest]
      have hrow : ∀ m'' ∈ rest, ∀ x,
          (processNucs rn p m st nucs).dens m'' x = st.dens m'' x := by
        intro m'' hm'' x
        have hcond : ¬(m'' = m ∧ x ∈ nucs ∧ p x = true ∧ densScale * st.dens m x ≤ 0) :=
          fun hc => hm (hc.1 ▸ hm'')
        rw [processNucs_dens rn p m nucs hnucs st m'' x, if_neg hcond]
      have hblocks :
          rest.map (fun mm =>
            (nucs.filter
                (fun x => p x &&
                  decide (0 < densScale * (processNucs rn p m st nucs).dens mm x))).map
              (fun x => (mm, x, emitDensity rn (densScale * (processNucs rn p m st nucs).dens mm x)))) =
          rest.map (fun mm =>
            (nucs.filter (fun x => p x && decide (0 < densScale * st.dens mm x))).map
              (fun x => (mm, x, emitDensity rn (densScale * st.dens mm x)))) := by
        apply List.map_congr_left
        intro mm hmm
        have hfil :
            nucs.filter
                (fun x => p x &&
                  decide (0 < densScale * (processNucs rn p m st nucs).dens mm x)) =
              nucs.filter (fun x => p x && decide (0 < densScale * st.dens mm x)) :=
          List.filter_congr (fun x _ => by rw [hrow mm hmm x])
        rw [hfil]
        apply List.map_congr_left
        intro x _
        rw [hrow mm hmm x]
      rw [hblocks, processNucs_entries rn p m nucs hnucs st]
      simp [List.append_assoc]

theorem countP_flatten_eq_zero {β : Type} (l : List ℕ) (f : ℕ → List β) (kp : β → Bool)
    (h : ∀ mm ∈ l, ∀ w ∈ f mm, kp w = false) :
    ((l.map f).flatten).countP kp = 0 := by
  induction l with
  | nil => rfl
  | cons m rest ih =>
      simp only [List.map_cons, List.flatten_cons, List.countP_append]
      rw [ih (fun mm hmm w hw => h mm (List.mem_cons_of_mem _ hmm) w hw)]
      rw [List.countP_eq_zero.2 (fun w hw => by
        rw [h m (List.mem_cons_self _ _) w hw]; simp)]

theorem countP_flatten_single {β : Type} (m₀ : ℕ) (f : ℕ → List β) (kp : β → Bool)
    (hblock : ∀ mm, mm ≠ m₀ → ∀ w ∈ f mm, kp w = false) (mats : List ℕ) :
    mats.Nodup → m₀ ∈ mats →
      ((mats.map f).flatten).countP kp = (f m₀).countP kp := by
  induction mats with
  | nil => intro _ hm; cases hm
  | cons m rest ih =>
      intro h hm
      rcases List.nodup_cons.1 h with ⟨hmr, hrest⟩
      simp only [List.map_cons, List.flatten_cons, List.countP_append]
      rcases List.mem_cons.1 hm with rfl | hm'
      · rw [countP_flatten_eq_zero rest f kp
          (fun mm hmm w hw => hblock mm (fun he => hmr (he ▸ hmm)) w hw)]
        omega
      · have hne : m ≠ m₀ := fun he => hmr (he ▸ hm')
        rw [List.countP_eq_zero.2 (fun w hw => by rw [hblock m hne w hw]; simp),
          ih hrest hm']
        omega

theorem countP_key {α : Type} [DecidableEq α] (n₀ : α) (l : List α) :
    l.Nodup → l.countP (fun x => decide (x = n₀)) = if n₀ ∈ l then 1 else 0 := by
  induction l with
  | nil => intro _; rfl
  | cons a rest ih =>
      intro hl
      rcases List.nodup_cons.1 hl with ⟨ha, hrest⟩
      rw [List.countP_cons, ih hrest]
      by_cases he : a = n₀
      · subst he
        simp [ha]
      · have he' : ¬(n₀ = a) := fun h => he h.symm
        simp [he, he', List.mem_cons]

/-- C9: emitting the materials document is not read-only on the density
state: for every iterated material and participating nuclide whose computed
density `val = 1.0e-24 * density` is not strictly positive, the stored atom
density is overwritten with exactly 0, and every other entry of the density
container is left unchanged. -/
theorem generate_materials_xml_dens_effect {α : Type} [DecidableEq α] (rn : Bool)
    (p : α → Bool) (mats : List ℕ) (nucs : List α) (d0 : ℕ → α → ℚ)
    (h1 : mats.Nodup) (h2 : nucs.Nodup) :
    ∀ m n, (generate_materials_xml rn p mats nucs d0).dens m n =
      if m ∈ mats ∧ n ∈ nucs ∧ p n = true ∧ densScale * d0 m n ≤ 0
      then 0 else d0 m n :=
  fun m n => processMats_dens rn p nucs h2 mats h1 ⟨[], [], d0⟩ m n

/-- Witness for `generate_materials_xml_dens_effect` at a concrete input. -/
theorem generate_materials_xml_dens_effect_witness :
    ([3] : List ℕ).Nodup ∧ ([0] : List ℕ).Nodup
    ∧ ∀ m n, (generate_materials_xml false (fun _ => true) [3] [0]
          (fun _ _ => (-5 : ℚ))).dens m n =
        if m ∈ ([3] : List ℕ) ∧ n ∈ ([0] : List ℕ) ∧ (fun (_ : ℕ) => true) n = true
            ∧ densScale * (fun (_ : ℕ) (_ : ℕ) => (-5 : ℚ)) m n ≤ 0
        then 0 else (fun (_ : ℕ) (_ : ℕ) => (-5 : ℚ)) m n :=
  ⟨by decide, by decide,
    generate_materials_xml_dens_effect false (fun _ => true) [3] [0]
      (fun _ _ => (-5 : ℚ)) (by decide) (by decide)⟩

/-- C3 as frozen is false on the code: at a computed density of exactly
`-1.0e-21` the source prints no warning (line 546 tests `val < -1.0e-21`
strictly), while the claim demands exactly one warning for every density
`≤ -1.0e-21`.  With stored density `-1000`, `val = 1.0e-24 * (-1000)`
equals the threshold: the value is clamped but the warning list is empty. -/
theorem generate_materials_warning_boundary_counterexample :
    densScale * (-1000 : ℚ) ≤ negTol
    ∧ (generate_materials_xml false (fun _ : ℕ => true) [7] [0]
        (fun _ _ => (-1000 : ℚ))).warnings = []
    ∧ (generate_materials_xml false (fun _ : ℕ => true) [7] [0]
        (fun _ _ => (-1000 : ℚ))).dens 7 0 = 0 := by
  have h0 : ¬(densScale * (1000 : ℚ) < 0) := by norm_num [densScale]
  have hw : ¬(-(densScale * (1000 : ℚ)) < negTol) := by norm_num [densScale, negTol]
  refine ⟨by norm_num [densScale, negTol], ?_, ?_⟩ <;>
    simp [generate_materials_xml, processMats, processNucs, processNuc, h0, hw, updDens]

/-- C3 amended: for every material `m₀` and participating nuclide `n₀` of
the document generation, with `val = 1.0e-24 * density`: exactly one warning
naming `(n₀, m₀, val)` is printed iff `val < -1.0e-21` (strictly; values in
`[-1.0e-21, 0]` are clamped silently), a document entry for `(m₀, n₀)` is
produced iff `val > 0`, and the stored density is clamped to exactly 0 iff
`val ≤ 0`. -/
theorem generate_materials_xml_clamp_spec {α : Type} [DecidableEq α] (rn : Bool)
    (p : α → Bool) (mats : List ℕ) (nucs : List α) (d0 : ℕ → α → ℚ) (m₀ : ℕ) (n₀ : α)
    (h1 : mats.Nodup) (h2 : nucs.Nodup) (hm : m₀ ∈ mats) (hn : n₀ ∈ nucs)
    (hp : p n₀ = true) :
    (generate_materials_xml rn p mats nucs d0).warnings.countP
        (fun w => decide (w.1 = n₀) && decide (w.2.1 = m₀)) =
      (if densScale * d0 m₀ n₀ < negTol then 1 else 0)
    ∧ ((∃ v, (m₀, n₀, v) ∈ (generate_materials_xml rn p mats nucs d0).entries) ↔
        0 < densScale * d0 m₀ n₀)
    ∧ (generate_materials_xml rn p mats nucs d0).dens m₀ n₀ =
        (if densScale * d0 m₀ n₀ ≤ 0 then 0 else d0 m₀ n₀)
    ∧ ∀ v, (n₀, m₀, v) ∈ (generate_materials_xml rn p mats nucs d0).warnings →
        v = densScale * d0 m₀ n₀ := by
  have hW := processMats_warnings rn p nucs h2 mats h1 ⟨[], [], d0⟩
  have hE := processMats_entries rn p nucs h2 mats h1 ⟨[], [], d0⟩
  simp only [List.nil_append] at hW hE
  refine ⟨?_, ?_, ?_, ?_⟩
  · rw [generate_materials_xml, hW]
    rw [countP_flatten_single m₀
      (fun mm => (nucs.filter (fun x => p x && decide (densScale * d0 mm x < negTol))).map
        (fun x => (x, mm, densScale * d0 mm x)))
      (fun w => decide (w.1 = n₀) && decide (w.2.1 = m₀))
      ?_ mats h1 hm]
    · rw [List.countP_map]
      have hc : ((fun (w : α × ℕ × ℚ) => decide (w.1 = n₀) && decide (w.2.1 = m₀)) ∘
            (fun x => (x, m₀, densScale * d0 m₀ x))) = fun x => decide (x = n₀) := by
        funext x
        simp
      rw [hc, countP_key n₀ _ (h2.filter _)]
      by_cases hw : densScale * d0 m₀ n₀ < negTol
      · rw [if_pos hw, if_pos]
        exact List.mem_filter.2 ⟨hn, by simp [hp, hw]⟩
      · rw [if_neg hw, if_neg]
        intro hmem
        have := (List.mem_filter.1 hmem).2
        simp [hp] at this
        exact hw this
    · intro mm hne w hw
      rcases List.mem_map.1 hw with ⟨x, _, rfl⟩
      simp [hne]
  · rw [generate_materials_xml, hE]
    constructor
    · rintro ⟨v, hv⟩
      rcases List.mem_flatten.1 hv with ⟨blk, hblk, hvblk⟩
      rcases List.mem_map.1 hblk with ⟨mm, _, rfl⟩
      rcases List.mem_map.1 hvblk with ⟨x, hxf, hx⟩
      have hxm : mm = m₀ := congrArg Prod.fst hx
      have hxn : x = n₀ := congrArg (fun q => q.2.1) hx
      subst hxm
      subst hxn
      have := (List.mem_filter.1 hxf).2
      simp [hp] at this
      exact this
    · intro h0
      refine ⟨emitDensity rn (densScale * d0 m₀ n₀), List.mem_flatten.2
        ⟨_, List.mem_map_of_mem _ hm, List.mem_map_of_mem _
          (List.mem_filter.2 ⟨hn, by simp [hp, h0]⟩)⟩⟩
  · rw [generate_materials_xml,
      processMats_dens rn p nucs h2 mats h1 ⟨[], [], d0⟩ m₀ n₀]
    by_cases hle : densScale * d0 m₀ n₀ ≤ 0
    · rw [if_pos ⟨hm, hn, hp, hle⟩, if_pos hle]
    · rw [if_neg (fun hc => hle hc.2.2.2), if_neg hle]
  · intro v hv
    rw [generate_materials_xml, hW] at hv
    rcases List.mem_flatten.1 hv with ⟨blk, hblk, hvblk⟩
    rcases List.mem_map.1 hblk with ⟨mm, _, rfl⟩
    rcases List.mem_map.1 hvblk with ⟨x, hxf, hx⟩
    simp only [Prod.ext_iff] at hx
    obtain ⟨hx1, hx2, hx3⟩ := hx
    subst hx1
    subst hx2
    exact hx3.symm

/-- Witness for `generate_materials_xml_clamp_spec` at a concrete input. -/
theorem generate_materials_xml_clamp_spec_witness :
    ([7] : List ℕ).Nodup ∧ ([0] : List ℕ).Nodup ∧ (7 : ℕ) ∈ ([7] : List ℕ)
    ∧ (0 : ℕ) ∈ ([0] : List ℕ) ∧ (fun (_ : ℕ) => true) 0 = true
    ∧ ((generate_materials_xml false (fun _ : ℕ => true) [7] [0]
          (fun _ _ => (-1000 : ℚ))).warnings.countP
          (fun w => decide (w.1 = 0) && decide (w.2.1 = 7)) =
        (if densScale * (-1000 : ℚ) < negTol then 1 else 0)
      ∧ ((∃ v, ((7 : ℕ), (0 : ℕ), v) ∈ (generate_materials_xml false (fun _ : ℕ => true)
            [7] [0] (fun _ _ => (-1000 : ℚ))).entries) ↔ 0 < densScale * (-1000 : ℚ))
      ∧ (generate_materials_xml false (fun _ : ℕ => true) [7] [0]
            (fun _ _ => (-1000 : ℚ))).dens 7 0 =
          (if densScale * (-1000 : ℚ) ≤ 0 then 0 else (-1000 : ℚ))
      ∧ ∀ v, ((0 : ℕ), (7 : ℕ), v) ∈ (generate_materials_xml false (fun _ : ℕ => true)
            [7] [0] (fun _ _ => (-1000 : ℚ))).warnings → v = densScale * (-1000 : ℚ)) :=
  ⟨by decide, by decide, by decide, by decide, rfl,
    generate_materials_xml_clamp_spec false (fun _ : ℕ => true) [7] [0]
      (fun _ _ => (-1000 : ℚ)) 7 0 (by decide) (by decide) (by decide) (by decide) rfl⟩

/-! ### Settings document and the seed (lines 585-621, 463-471) -/

/-- `generate_settings_xml` (lines 585-621), restricted to its seed effect.
Everything runs under `if self.rank == 0`: the coordinator uses the
configured constant seed when present, else a freshly drawn one (the oracle
`drawn` stands for `random.randint(1, sys.maxsize-1)`), stores it in
`self.seed` and writes it into the settings document.  The result is
`(new self.seed, seed written to the settings document)`; `none` means this
rank wrote no settings document. -/
def generate_settings_xml (rank : ℕ) (constantSeed : Option ℕ) (drawn : ℕ)
    (selfSeed : ℕ) : ℕ × Option ℕ :=
  if rank = 0 then
    let seed := match constantSeed with
      | some s => s
      | none => drawn
    (seed, some seed)
  else (selfSeed, none)

/-- C8 is false as stated: with constant seed 42 configured, the coordinator
runs with seed 42, but a non-coordinator rank (rank 1, initial `self.seed`
0) records and returns 0, not the seed actually used — lines 596-621 execute
only on rank 0 while `eval` (line 471) returns `self.seed` on every rank. -/
theorem generate_settings_xml_counterexample :
    (generate_settings_xml 0 (some 42) 7 0).2 = some 42
    ∧ (generate_settings_xml 1 (some 42) 7 0).1 = 0
    ∧ (0 : ℕ) ≠ 42 := by decide

/-- C8 amended: on the coordinator rank the seed used is the configured
constant seed when present, otherwise the freshly drawn one, and that seed is
recorded in the operator's state (and hence returned by `eval`); every other
rank leaves its recorded seed unchanged and returns that stale value. -/
theorem generate_settings_xml_seed_spec :
    (∀ (cs : Option ℕ) (drawn selfSeed : ℕ),
        generate_settings_xml 0 cs drawn selfSeed =
          (cs.getD drawn, some (cs.getD drawn)))
    ∧ ∀ (rank : ℕ), rank ≠ 0 → ∀ (cs : Option ℕ) (drawn selfSeed : ℕ),
        generate_settings_xml rank cs drawn selfSeed = (selfSeed, none) := by
  constructor
  · intro cs drawn s
    cases cs <;> simp [generate_settings_xml, Option.getD]
  · intro rank hr cs drawn s
    simp [generate_settings_xml, hr]

/-- Witness for `generate_settings_xml_seed_spec` at a concrete input. -/
theorem generate_settings_xml_seed_spec_witness :
    generate_settings_xml 0 (some 42) 7 0 = (42, some 42)
    ∧ (1 : ℕ) ≠ 0
    ∧ generate_settings_xml 1 (some 42) 7 0 = (0, none) :=
  ⟨generate_settings_xml_seed_spec.1 (some 42) 7 0, by decide,
    generate_settings_xml_seed_spec.2 1 (by decide) (some 42) 7 0⟩

/-! ### Per-rank event order of `eval` (lines 409-471) -/

/-- Observable events of one depletion step. -/
inductive StepEvent where
  | generateInputs
  | runSimulator
  | sendCompletion
  | waitCompletion
  | ingestTallies
  | powerReduction
  | collectiveBarrier
  | removeStatepoint
deriving DecidableEq

/-- Program order of `eval` (lines 409-471) on one rank: the coordinator
blocks on the simulator and sends completion signals (lines 439-447); other
ranks poll a non-blocking receive with a one-second sleep (lines 451-454);
every rank then ingests the tallies and takes part in the power reduction,
both inside `unpack_tallies_and_normalize` (line 459), and only afterwards
executes `self.comm.barrier()` (line 461); the coordinator finally deletes
the statepoint file (line 465). -/
def evalTrace (isRoot : Bool) : List StepEvent :=
  if isRoot then
    [.generateInputs, .runSimulator, .sendCompletion, .ingestTallies,
      .powerReduction, .collectiveBarrier, .removeStatepoint]
  else
    [.generateInputs, .waitCompletion, .ingestTallies, .powerReduction,
      .collectiveBarrier]

/-- Some occurrence of `a` lies strictly before some occurrence of `b`. -/
def eventPrecedes (a b : StepEvent) (tr : List StepEvent) : Prop :=
  ∃ i : Fin tr.length, ∃ j : Fin tr.length, i.1 < j.1 ∧ tr.get i = a ∧ tr.get j = b

instance decEventPrecedes (a b : StepEvent) (tr : List StepEvent) :
    Decidable (eventPrecedes a b tr) :=
  inferInstanceAs (Decidable (∃ i : Fin tr.length, ∃ j : Fin tr.length,
    i.1 < j.1 ∧ tr.get i = a ∧ tr.get j = b))

/-- C6 is false on the code: the only collective barrier of a depletion step
(line 461) comes after `unpack_tallies_and_normalize` (line 459), so no rank
executes a barrier between observing completion and beginning result
ingestion. -/
theorem eval_barrier_counterexample :
    StepEvent.collectiveBarrier ∈ evalTrace false
    ∧ StepEvent.ingestTallies ∈ evalTrace false
    ∧ ¬ eventPrecedes .collectiveBarrier .ingestTallies (evalTrace false)
    ∧ ¬ eventPrecedes .collectiveBarrier .ingestTallies (evalTrace true) := by
  decide

/-- C6 amended: in every rank's program order, result ingestion precedes the
power reduction, the collective barrier executes only after the power
reduction, and no barrier precedes ingestion — synchronized entry into the
reduction is provided by the point-to-point gather/broadcast inside
`unpack_tallies_and_normalize`, not by a prior barrier. -/
theorem eval_barrier_spec :
    ∀ b : Bool,
      eventPrecedes .ingestTallies .powerReduction (evalTrace b)
      ∧ eventPrecedes .powerReduction .collectiveBarrier (evalTrace b)
      ∧ ¬ eventPrecedes .collectiveBarrier .ingestTallies (evalTrace b) := by
  decide

/-! ### Tally ingestion and power normalization (lines 708-814)

Per owned burnable material (lines 767-795): expand the flat results row into
a dense `[n_nuc, n_react]` slice at the remapped indices `nuc_ind` /
`react_ind`, record each tally nuclide's atom count, accumulate the fission
power, divide entries per-atom where the atom count is nonzero, and store.
Lines 797-812: gather the per-rank partial powers on the coordinator, sum,
broadcast, and multiply the whole tensor by `settings.power / power`.
-/

/-- Pointwise update of the dense `results_expanded` slice. -/
def updSlice (f : ℕ → ℕ → ℚ) (i r : ℕ) (v : ℚ) : ℕ → ℕ → ℚ :=
  fun i' r' => if i' = i ∧ r' = r then v else f i' r'

/-- Pointwise update of the per-nuclide `number` vector. -/
def updVec (f : ℕ → ℚ) (i : ℕ) (v : ℚ) : ℕ → ℚ :=
  fun i' => if i' = i then v else f i'

/-- The pair `(results_expanded, number)` built for one material
(lines 774-775). -/
structure ExpandState where
  expanded : ℕ → ℕ → ℚ
  number : ℕ → ℚ

/-- Inner expansion loop (lines 781-784): for the tally nuclide remapped to
row `iNucRes`, write the flat results at consecutive indices `j` into the
columns of `reactInd` and record that nuclide's atom count `matNum`. -/
def expandReacts (results : ℕ → ℚ) (iNucRes : ℕ) (matNum : ℚ) :
    List ℕ → ℕ → ExpandState → ExpandState
  | [], _, st => st
  | r :: rest, j, st =>
      expandReacts results iNucRes matNum rest (j + 1)
        ⟨updSlice st.expanded iNucRes r (results j), updVec st.number iNucRes matNum⟩

/-- Outer expansion loop (lines 778-784): `a` is the enumeration position
`i_nuc_array`, `j` the running flat index. -/
def expandNucs (results matNumber : ℕ → ℚ) (reactInd : List ℕ) :
    List ℕ → ℕ → ℕ → ExpandState → ExpandState
  | [], _, _, st => st
  | iNucRes :: rest, a, j, st =>
      expandNucs results matNumber reactInd rest (a + 1) (j + reactInd.length)
        (expandReacts results iNucRes (matNumber a) reactInd j st)

/-- Lines 774-784: zero-initialised `results_expanded` and `number`, filled
by the expansion loops; `matNumber a` models `self.number[mat, nuclides[a]]`. -/
def expandResults (nucInd reactInd : List ℕ) (results matNumber : ℕ → ℚ) : ExpandState :=
  expandNucs results matNumber reactInd nucInd 0 0 ⟨fun _ _ => 0, fun _ => 0⟩

/-- Inner division loop (lines 790-793): divide the entries of row `i`
by `number[i]` unless that atom count is zero. -/
def divideReacts (number : ℕ → ℚ) (i : ℕ) : List ℕ → (ℕ → ℕ → ℚ) → ℕ → ℕ → ℚ
  | [], e => e
  | r :: rest, e =>
      divideReacts number i rest
        (if number i ≠ 0 then updSlice e i r (e i r / number i) else e)

/-- Outer division loop (lines 790-793) over the remapped nuclide rows. -/
def divideNucs (number : ℕ → ℚ) (reactInd : List ℕ) : List ℕ → (ℕ → ℕ → ℚ) → ℕ → ℕ → ℚ
  | [], e => e
  | i :: rest, e => divideNucs number reactInd rest (divideReacts number i reactInd e)

/-- One material's stored tensor row (line 795): the expanded slice, divided
per-atom where the atom count is nonzero. -/
def unpackMat (nucInd reactInd : List ℕ) (results matNumber : ℕ → ℚ) : ℕ → ℕ → ℚ :=
  divideNucs (expandResults nucInd reactInd results matNumber).number reactInd nucInd
    (expandResults nucInd reactInd results matNumber).expanded

/-- Line 787: `power += np.dot(results_expanded[:, fission_ind], power_vec)`. -/
def matFissionPower (nNuc fissionInd : ℕ) (powerVec : ℕ → ℚ) (expanded : ℕ → ℕ → ℚ) : ℚ :=
  ∑ n ∈ Finset.range nNuc, expanded n fissionInd * powerVec n

/-- The flat tally data of one burnable material: its results hyperslab row
and the atom counts of its tally nuclides by tally position. -/
structure MatTally where
  results : ℕ → ℚ
  matNumber : ℕ → ℚ

/-- One rank's partial fission power, accumulated over its owned materials
(lines 754-787). -/
def rankPower (nNuc fissionInd : ℕ) (powerVec : ℕ → ℚ) (nucInd reactInd : List ℕ)
    (mats : List MatTally) : ℚ :=
  (mats.map (fun m =>
    matFissionPower nNuc fissionInd powerVec
      (expandResults nucInd reactInd m.results m.matNumber).expanded)).sum

/-- Lines 797-810: partial powers gathered on the coordinator, summed to the
global measured power, broadcast to every rank. -/
def globalPower (nNuc fissionInd : ℕ) (powerVec : ℕ → ℚ) (nucInd reactInd : List ℕ)
    (ranks : List (List MatTally)) : ℚ :=
  (ranks.map (rankPower nNuc fissionInd powerVec nucInd reactInd)).sum

/-- Line 812: every entry of the stored tensor is multiplied by
`settings.power / power` (exact arithmetic). -/
def normalizedRate (nNuc fissionInd : ℕ) (powerVec : ℕ → ℚ) (nucInd reactInd : List ℕ)
    (targetPower : ℚ) (ranks : List (List MatTally)) (m : MatTally) (n r : ℕ) : ℚ :=
  unpackMat nucInd reactInd m.results m.matNumber n r *
    (targetPower / globalPower nNuc fissionInd powerVec nucInd reactInd ranks)

theorem expandReacts_number_ne (results : ℕ → ℚ) (i : ℕ) (mn : ℚ) (reacts : List ℕ) :
    ∀ (j : ℕ) (st : ExpandState) (i' : ℕ), i' ≠ i →
      (expandReacts results i mn reacts j st).number i' = st.number i' := by
  induction reacts with
  | nil => intro j st i' _; rfl
  | cons r rest ih =>
      intro j st i' hne
      rw [expandReacts, ih (j + 1) _ i' hne]
      simp [updVec, hne]

theorem expandNucs_number_not_mem (results matNumber : ℕ → ℚ) (reactInd : List ℕ)
    (l : List ℕ) :
    ∀ (a j : ℕ) (st : ExpandState) (i' : ℕ), i' ∉ l →
      (expandNucs results matNumber reactInd l a j st).number i' = st.number i' := by
  induction l with
  | nil => intro a j st i' _; rfl
  | cons i rest ih =>
      intro a j st i' hni
      rw [expandNucs, ih _ _ _ i' (fun h => hni (List.mem_cons_of_mem _ h)),
        expandReacts_number_ne results i (matNumber a) reactInd j st i'
          (fun h => hni (h ▸ List.mem_cons_self _ _))]

theorem expandResults_number_not_mem (nucInd reactInd : List ℕ) (results matNumber : ℕ → ℚ)
    (i : ℕ) (h : i ∉ nucInd) :
    (expandResults nucInd reactInd results matNumber).number i = 0 :=
  expandNucs_number_not_mem results matNumber reactInd nucInd 0 0 _ i h

theorem divideReacts_ne (number : ℕ → ℚ) (i : ℕ) (reacts : List ℕ) :
    ∀ (e : ℕ → ℕ → ℚ) (i' r' : ℕ), i' ≠ i →
      divideReacts number i reacts e i' r' = e i' r' := by
  induction reacts with
  | nil => intro e i' r' _; rfl
  | cons r rest ih =>
      intro e i' r' hne
      rw [divideReacts, ih _ i' r' hne]
      by_cases hz : number i ≠ 0 <;> simp [hz, updSlice, hne]

theorem divideReacts_zero (number : ℕ → ℚ) (i : ℕ) (reacts : List ℕ) (hz : number i = 0) :
    ∀ e, divideReacts number i reacts e = e := by
  induction reacts with
  | nil => intro e; rfl
  | cons r rest ih =>
      intro e
      rw [divideReacts, if_neg (fun h => h hz), ih e]

theorem divideReacts_col_notin (number : ℕ → ℚ) (i : ℕ) (reacts : List ℕ) :
    ∀ (e : ℕ → ℕ → ℚ) (i' r' : ℕ), r' ∉ reacts →
      divideReacts number i reacts e i' r' = e i' r' := by
  induction reacts with
  | nil => intro e i' r' _; rfl
  | cons r rest ih =>
      intro e i' r' hr
      rw [divideReacts, ih _ i' r' (fun h => hr (List.mem_cons_of_mem _ h))]
      have hr' : r' ≠ r := fun h => hr (h ▸ List.mem_cons_self _ _)
      by_cases hz : number i ≠ 0 <;> simp [hz, updSlice, hr']

theorem divideReacts_div (number : ℕ → ℚ) (i : ℕ) (reacts : List ℕ) :
    reacts.Nodup → ∀ (e : ℕ → ℕ → ℚ) (r : ℕ), r ∈ reacts → number i ≠ 0 →
      divideReacts number i reacts e i r = e i r / number i := by
  induction reacts with
  | nil => intro _ e r hr _; cases hr
  | cons r₀ rest ih =>
      intro h2 e r hr hz
      rcases List.nodup_cons.1 h2 with ⟨hr0, hrest⟩
      rw [divideReacts]
      rcases List.mem_cons.1 hr with rfl | hr'
      · rw [divideReacts_col_notin number i rest _ i r hr0]
        simp [hz, updSlice]
      · rw [ih hrest _ r hr' hz]
        have hrne : r ≠ r₀ := fun h => hr0 (h ▸ hr')
        simp [hz, updSlice, hrne]

theorem divideNucs_row_notin (number : ℕ → ℚ) (reactInd : List ℕ) (l : List ℕ) :
    ∀ (e : ℕ → ℕ → ℚ) (i r : ℕ), i ∉ l →
      divideNucs number reactInd l e i r = e i r := by
  induction l with
  | nil => intro e i r _; rfl
  | cons i₀ rest ih =>
      intro e i r hi
      rw [divideNucs, ih _ i r (fun h => hi (List.mem_cons_of_mem _ h)),
        divideReacts_ne number i₀ reactInd e i r (fun h => hi (h ▸ List.mem_cons_self _ _))]

theorem divideNucs_zero (number : ℕ → ℚ) (reactInd : List ℕ) (l : List ℕ) :
    ∀ (e : ℕ → ℕ → ℚ) (i r : ℕ), number i = 0 →
      divideNucs number reactInd l e i r = e i r := by
  induction l with
  | nil => intro e i r _; rfl
  | cons i₀ rest ih =>
      intro e i r hz
      rw [divideNucs, ih _ i r hz]
      by_cases hii : i = i₀
      · rw [divideReacts_zero number i₀ reactInd (hii ▸ hz) e]
      · rw [divideReacts_ne number i₀ reactInd e i r hii]

theorem divideNucs_div (number : ℕ → ℚ) (reactInd : List ℕ) (h2 : reactInd.Nodup)
    (l : List ℕ) :
    l.Nodup → ∀ (e : ℕ → ℕ → ℚ) (i r : ℕ), i ∈ l → r ∈ reactInd → number i ≠ 0 →
      divideNucs number reactInd l e i r = e i r / number i := by
  induction l with
  | nil => intro _ e i r hi; cases hi
  | cons i₀ rest ih =>
      intro hl e i r hi hr hz
      rcases List.nodup_cons.1 hl with ⟨hi0, hrest⟩
      rw [divideNucs]
      rcases List.mem_cons.1 hi with rfl | hi'
      · rw [divideNucs_row_notin number reactInd rest _ i r hi0]
        exact divideReacts_div number i reactInd h2 e r hr hz
      · rw [ih hrest _ i r hi' hr hz,
          divideReacts_ne number i₀ reactInd e i r (fun h => hi0 (h ▸ hi'))]

/-- C4: during tally ingestion, every `(nuclide, reaction)` entry whose
nuclide has an atom count of exactly zero is skipped by the per-atom
division: the stored tensor entry equals the pre-division expanded tally
value, so nothing is ever divided by a zero atom count. -/
theorem unpackMat_zero_atoms (nucInd reactInd : List ℕ) (results matNumber : ℕ → ℚ)
    (n r : ℕ) (h : (expandResults nucInd reactInd results matNumber).number n = 0) :
    unpackMat nucInd reactInd results matNumber n r =
      (expandResults nucInd reactInd results matNumber).expanded n r :=
  divideNucs_zero _ reactInd nucInd _ n r h

/-- Witness for `unpackMat_zero_atoms` at a concrete input. -/
theorem unpackMat_zero_atoms_witness :
    (expandResults [0] [0] (fun _ => (5 : ℚ)) (fun _ => 0)).number 0 = 0
    ∧ unpackMat [0] [0] (fun _ => (5 : ℚ)) (fun _ => 0) 0 0 =
        (expandResults [0] [0] (fun _ => (5 : ℚ)) (fun _ => 0)).expanded 0 0 := by
  have h0 : (expandResults [0] [0] (fun _ => (5 : ℚ)) (fun _ => 0)).number 0 = 0 := by
    simp [expandResults, expandNucs, expandReacts, updVec]
  exact ⟨h0, unpackMat_zero_atoms [0] [0] (fun _ => (5 : ℚ)) (fun _ => 0) 0 0 h0⟩

theorem matRecovered_eq (nNuc fissionInd : ℕ) (powerVec : ℕ → ℚ)
    (nucInd reactInd : List ℕ) (h1 : nucInd.Nodup) (h2 : reactInd.Nodup)
    (hf : fissionInd ∈ reactInd) (results matNumber : ℕ → ℚ) :
    (∑ n ∈ Finset.range nNuc, powerVec n *
      (if (expandResults nucInd reactInd results matNumber).number n ≠ 0 then
        unpackMat nucInd reactInd results matNumber n fissionInd *
          (expandResults nucInd reactInd results matNumber).number n
      else unpackMat nucInd reactInd results matNumber n fissionInd)) =
    matFissionPower nNuc fissionInd powerVec
      (expandResults nucInd reactInd results matNumber).expanded := by
  unfold matFissionPower
  apply Finset.sum_congr rfl
  intro n _
  by_cases hz : (expandResults nucInd reactInd results matNumber).number n = 0
  · rw [if_neg (not_not_intro hz),
      unpackMat_zero_atoms nucInd reactInd results matNumber n fissionInd hz]
    ring
  · rw [if_pos hz]
    have hmem : n ∈ nucInd := by
      by_contra hni
      exact hz (expandResults_number_not_mem nucInd reactInd results matNumber n hni)
    have hdiv := divideNucs_div (expandResults nucInd reactInd results matNumber).number
      reactInd h2 nucInd h1 (expandResults nucInd reactInd results matNumber).expanded
      n fissionInd hmem hf hz
    rw [unpackMat, hdiv, div_mul_cancel₀ _ hz]
    ring

/-- C2 amended: after power normalization, re-multiplying each material's
fission column by the per-nuclide atom counts where those are nonzero
(zero-atom entries taken as stored, since they were never divided) and
weighting each nuclide by its fission energy `power_vec`, the total summed
over all ranks equals the configured target power — provided the measured
global power is nonzero, in exact arithmetic, for every rank count. -/
theorem unpack_normalize_power_spec (nNuc fissionInd : ℕ) (powerVec : ℕ → ℚ)
    (nucInd reactInd : List ℕ) (targetPower : ℚ) (ranks : List (List MatTally))
    (h1 : nucInd.Nodup) (h2 : reactInd.Nodup) (hf : fissionInd ∈ reactInd)
    (hP : globalPower nNuc fissionInd powerVec nucInd reactInd ranks ≠ 0) :
    (ranks.map (fun rk => (rk.map (fun m =>
      ∑ n ∈ Finset.range nNuc, powerVec n *
        (if (expandResults nucInd reactInd m.results m.matNumber).number n ≠ 0 then
          normalizedRate nNuc fissionInd powerVec nucInd reactInd targetPower ranks m
              n fissionInd *
            (expandResults nucInd reactInd m.results m.matNumber).number n
        else
          normalizedRate nNuc fissionInd powerVec nucInd reactInd targetPower ranks m
            n fissionInd))).sum)).sum
    = targetPower := by
  have hmat : ∀ m : MatTally,
      (∑ n ∈ Finset.range nNuc, powerVec n *
        (if (expandResults nucInd reactInd m.results m.matNumber).number n ≠ 0 then
          normalizedRate nNuc fissionInd powerVec nucInd reactInd targetPower ranks m
              n fissionInd *
            (expandResults nucInd reactInd m.results m.matNumber).number n
        else
          normalizedRate nNuc fissionInd powerVec nucInd reactInd targetPower ranks m
            n fissionInd)) =
      (targetPower / globalPower nNuc fissionInd powerVec nucInd reactInd ranks) *
        matFissionPower nNuc fissionInd powerVec
          (expandResults nucInd reactInd m.results m.matNumber).expanded := by
    intro m
    rw [← matRecovered_eq nNuc fissionInd powerVec nucInd reactInd h1 h2 hf
      m.results m.matNumber, Finset.mul_sum]
    apply Finset.sum_congr rfl
    intro n _
    by_cases hz : (expandResults nucInd reactInd m.results m.matNumber).number n ≠ 0
    · rw [if_pos hz, if_pos hz]
      unfold normalizedRate
      ring
    · rw [if_neg hz, if_neg hz]
      unfold normalizedRate
      ring
  have hrk : ∀ rk : List MatTally,
      (rk.map (fun m =>
        ∑ n ∈ Finset.range nNuc, powerVec n *
          (if (expandResults nucInd reactInd m.results m.matNumber).number n ≠ 0 then
            normalizedRate nNuc fissionInd powerVec nucInd reactInd targetPower ranks m
                n fissionInd *
              (expandResults nucInd reactInd m.results m.matNumber).number n
          else
            normalizedRate nNuc fissionInd powerVec nucInd reactInd targetPower ranks m
              n fissionInd))).sum =
      (targetPower / globalPower nNuc fissionInd powerVec nucInd reactInd ranks) *
        rankPower nNuc fissionInd powerVec nucInd reactInd rk := by
    intro rk
    rw [List.map_congr_left (fun m _ => hmat m), List.sum_map_mul_left]
    rfl
  rw [List.map_congr_left (fun rk _ => hrk rk), List.sum_map_mul_left]
  exact div_mul_cancel₀ targetPower hP

/-- C2 is false as stated: one rank, one material, one tally nuclide with
one atom and raw fission rate 1, fission energy (`power_vec`) 2, target
power 6.  The measured power is `1 * 2 = 2`, the scale `6 / 2 = 3`, and the
sum of (normalized fission rate × atom count) is 3, not the target 6 — the
claim omits the per-fission energy weighting used to measure the power. -/
theorem unpack_normalize_power_counterexample :
    ((([[⟨fun _ => 1, fun _ => 1⟩]] : List (List MatTally)).map (fun rk => (rk.map (fun m =>
        ∑ n ∈ Finset.range 1,
          normalizedRate 1 0 (fun _ => 2) [0] [0] 6 [[⟨fun _ => 1, fun _ => 1⟩]] m n 0 *
            (expandResults [0] [0] m.results m.matNumber).number n)).sum)).sum = 3)
    ∧ (3 : ℚ) ≠ 6 := by
  constructor
  · norm_num [normalizedRate, unpackMat, expandResults, expandNucs, expandReacts,
      divideNucs, divideReacts, updSlice, updVec, globalPower, rankPower,
      matFissionPower]
  · norm_num

/-- Witness for `unpack_normalize_power_spec` at a concrete input (the same
input as the counterexample; the energy-weighted total does recover the
target power 6). -/
theorem unpack_normalize_power_spec_witness :
    ([0] : List ℕ).Nodup ∧ ([0] : List ℕ).Nodup ∧ (0 : ℕ) ∈ ([0] : List ℕ)
    ∧ globalPower 1 0 (fun _ => 2) [0] [0] [[⟨fun _ => 1, fun _ => 1⟩]] ≠ 0
    ∧ (([[⟨fun _ => 1, fun _ => 1⟩]] : List (List MatTally)).map (fun rk => (rk.map (fun m =>
        ∑ n ∈ Finset.range 1, (fun _ : ℕ => (2 : ℚ)) n *
          (if (expandResults [0] [0] m.results m.matNumber).number n ≠ 0 then
            normalizedRate 1 0 (fun _ => 2) [0] [0] 6 [[⟨fun _ => 1, fun _ => 1⟩]] m n 0 *
              (expandResults [0] [0] m.results m.matNumber).number n
          else
            normalizedRate 1 0 (fun _ => 2) [0] [0] 6 [[⟨fun _ => 1, fun _ => 1⟩]] m
              n 0))).sum)).sum = 6 := by
  have hnz : globalPower 1 0 (fun _ => 2) [0] [0]
      [[(⟨fun _ => 1, fun _ => 1⟩ : MatTally)]] ≠ 0 := by
    norm_num [globalPower, rankPower, matFissionPower, expandResults, expandNucs,
      expandReacts, updSlice, updVec]
  exact ⟨by decide, by decide, by decide, hnz,
    unpack_normalize_power_spec 1 0 (fun _ => 2) [0] [0] 6 [[⟨fun _ => 1, fun _ => 1⟩]]
      (by decide) (by decide) (by decide) hnz⟩

/-- Division with an explicit poison value for non-finite IEEE results:
dividing by zero yields `none`. -/
def qdivChecked (a b : ℚ) : Option ℚ := if b = 0 then none else some (a / b)

/-- Line 812 under IEEE semantics: each stored entry is multiplied by the
scale `settings.power / power`; a zero measured power makes the scale, and
with it every rescaled entry, non-finite (`none`). -/
def normalizedRateChecked (nNuc fissionInd : ℕ) (powerVec : ℕ → ℚ)
    (nucInd reactInd : List ℕ) (targetPower : ℚ) (ranks : List (List MatTally))
    (m : MatTally) (n r : ℕ) : Option ℚ :=
  (qdivChecked targetPower
      (globalPower nNuc fissionInd powerVec nucInd reactInd ranks)).map
    (fun s => unpackMat nucInd reactInd m.results m.matNumber n r * s)

/-- C10: the rescale division `settings.power / power` carries no zero
check: the normalized tensor is well-defined exactly under the precondition
that the global measured power is nonzero.  When it is zero, every rescaled
entry is non-finite (`none`); when it is nonzero, every entry is finite and
equals the exact-arithmetic normalized rate. -/
theorem normalize_unguarded_division (nNuc fissionInd : ℕ) (powerVec : ℕ → ℚ)
    (nucInd reactInd : List ℕ) (targetPower : ℚ) (ranks : List (List MatTally)) :
    (globalPower nNuc fissionInd powerVec nucInd reactInd ranks = 0 →
      ∀ (m : MatTally) (n r : ℕ),
        normalizedRateChecked nNuc fissionInd powerVec nucInd reactInd targetPower
          ranks m n r = none)
    ∧ (globalPower nNuc fissionInd powerVec nucInd reactInd ranks ≠ 0 →
      ∀ (m : MatTally) (n r : ℕ),
        normalizedRateChecked nNuc fissionInd powerVec nucInd reactInd targetPower
            ranks m n r =
          some (normalizedRate nNuc fissionInd powerVec nucInd reactInd targetPower
            ranks m n r)) := by
  constructor
  · intro h0 m n r
    simp [normalizedRateChecked, qdivChecked, h0]
  · intro hne m n r
    simp [normalizedRateChecked, qdivChecked, hne, normalizedRate]

/-- Witness for `normalize_unguarded_division`: a zero-power input (all raw
rates zero) poisons the entry, a nonzero-power input keeps it finite. -/
theorem normalize_unguarded_division_witness :
    (globalPower 1 0 (fun _ => 2) [0] [0] [[⟨fun _ => 0, fun _ => 1⟩]] = 0
      ∧ normalizedRateChecked 1 0 (fun _ => 2) [0] [0] 6 [[⟨fun _ => 0, fun _ => 1⟩]]
          ⟨fun _ => 0, fun _ => 1⟩ 0 0 = none)
    ∧ (globalPower 1 0 (fun _ => 2) [0] [0] [[⟨fun _ => 1, fun _ => 1⟩]] ≠ 0
      ∧ normalizedRateChecked 1 0 (fun _ => 2) [0] [0] 6 [[⟨fun _ => 1, fun _ => 1⟩]]
          ⟨fun _ => 1, fun _ => 1⟩ 0 0 =
        some (normalizedRate 1 0 (fun _ => 2) [0] [0] 6 [[⟨fun _ => 1, fun _ => 1⟩]]
          ⟨fun _ => 1, fun _ => 1⟩ 0 0)) := by
  have hz : globalPower 1 0 (fun _ => 2) [0] [0]
      [[(⟨fun _ => 0, fun _ => 1⟩ : MatTally)]] = 0 := by
    norm_num [globalPower, rankPower, matFissionPower, expandResults, expandNucs,
      expandReacts, updSlice, updVec]
  have hnz : globalPower 1 0 (fun _ => 2) [0] [0]
      [[(⟨fun _ => 1, fun _ => 1⟩ : MatTally)]] ≠ 0 := by
    norm_num [globalPower, rankPower, matFissionPower, expandResults, expandNucs,
      expandReacts, updSlice, updVec]
  exact ⟨⟨hz, (normalize_unguarded_division 1 0 (fun _ => 2) [0] [0] 6 _).1 hz _ 0 0⟩,
    ⟨hnz, (normalize_unguarded_division 1 0 (fun _ => 2) [0] [0] 6 _).2 hnz _ 0 0⟩⟩

end OpenDeplete
